import Mathlib

/-!
# SteganoCrypt: verification of the steganographic codec

A shallow embedding of the core of `steganography_tool.py` (the
`SteganographyEngine` class plus the frame-parsing logic of
`SteganographyGUI.extract_data` / `extract_file_data`), together with
proofs about it.

Modelling conventions:
* Python strings that hold text are modelled as `List Nat` of their
  characters' code points (`ord`); byte strings as `List Nat` of byte values.
* Python "binary strings" (strings over the characters 0/1) are modelled
  as `List Bool`.
* An image is its channel count (3 for RGB, 4 for RGBA) together with the
  pixel list in traversal order, each pixel a list of channel bytes.
* `hashlib.sha256(...).hexdigest()` is modelled by a full executable
  SHA-256 implementation over byte lists (`sha256hex`).
* Functions that can fail (embed returning `False`, extract returning
  `None`) return `Option`.
-/

set_option maxRecDepth 4000

namespace Stegano

/-! ## Bit-level codec (`text_to_binary`, `binary_to_text`) -/

/-- Numeric value of one bit character. -/
def bitVal (b : Bool) : Nat := if b then 1 else 0

/-- `int(s, 2)` on a binary string: most-significant bit first. -/
def bitsVal (l : List Bool) : Nat := l.foldl (fun a b => 2 * a + bitVal b) 0

/-- Binary digits of `n`, least significant first, computed with explicit
fuel so that the definition is structurally recursive (and hence reduces
in the kernel).  For `n ≤ fuel` this is the full digit list. -/
def natBitsAux : Nat → Nat → List Bool
  | 0, _ => []
  | _ + 1, 0 => []
  | fuel + 1, n + 1 => ((n + 1) % 2 == 1) :: natBitsAux fuel ((n + 1) / 2)

/-- Minimal binary representation of `n`, most significant bit first:
Python's `format(n, 'b')` (where `format(0, 'b') = "0"`). -/
def natToBin (n : Nat) : List Bool :=
  if n = 0 then [false] else (natBitsAux n n).reverse

/-- Python's `format(n, '08b')`: the minimal binary representation
left-padded with zero bits to width at least 8. -/
def charBits (n : Nat) : List Bool :=
  List.replicate (8 - (natToBin n).length) false ++ natToBin n

/-- `SteganographyEngine.text_to_binary`: each character contributes
`format(ord(char), '08b')`.  Also used for byte strings
(`''.join(format(byte, '08b') for byte in data)` is the same function). -/
def text_to_binary (t : List Nat) : List Bool := t.flatMap charBits

/-- `SteganographyEngine.binary_to_text`: consume 8 bits at a time,
discarding a trailing group shorter than 8 bits. -/
def binary_to_text : List Bool → List Nat
  | b0 :: b1 :: b2 :: b3 :: b4 :: b5 :: b6 :: b7 :: rest =>
      bitsVal [b0, b1, b2, b3, b4, b5, b6, b7] :: binary_to_text rest
  | _ => []

/-- The 16-bit end-of-data sentinel `"1111111111111110"`. -/
def delimiter : List Bool := List.replicate 15 true ++ [false]

/-- `startsWith l p`: `p` is an initial segment of `l`
(Python `s.startswith(p)`, used to model substring search). -/
def startsWith : List Bool → List Bool → Bool
  | _, [] => true
  | [], _ :: _ => false
  | a :: l, p :: ps => (a == p) && startsWith l ps

/-- Python `haystack.find(pat)`: index of the first occurrence of `pat`,
`none` when absent. -/
def findSub (pat : List Bool) : List Bool → Option Nat
  | [] => if startsWith [] pat then some 0 else none
  | b :: l => if startsWith (b :: l) pat then some 0 else (findSub pat l).map (· + 1)

/-! ## SHA-256 (`hashlib.sha256(password.encode()).hexdigest()`)

The engine calls out to `hashlib`; we embed a complete executable
SHA-256 over byte lists.  All word arithmetic is `Nat` reduced mod `2^32`. -/

/-- `2^32`. -/
def M32 : Nat := 4294967296

/-- Rotate a 32-bit word right by `n` (for `x < 2^32`, `0 < n < 32`). -/
def rotr (n x : Nat) : Nat := (x / 2 ^ n + x % 2 ^ n * 2 ^ (32 - n)) % M32

/-- Logical right shift of a 32-bit word. -/
def shr32 (n x : Nat) : Nat := x / 2 ^ n

/-- SHA-256 big sigma 0. -/
def bsig0 (x : Nat) : Nat := rotr 2 x ^^^ rotr 13 x ^^^ rotr 22 x

/-- SHA-256 big sigma 1. -/
def bsig1 (x : Nat) : Nat := rotr 6 x ^^^ rotr 11 x ^^^ rotr 25 x

/-- SHA-256 small sigma 0. -/
def ssig0 (x : Nat) : Nat := rotr 7 x ^^^ rotr 18 x ^^^ shr32 3 x

/-- SHA-256 small sigma 1. -/
def ssig1 (x : Nat) : Nat := rotr 17 x ^^^ rotr 19 x ^^^ shr32 10 x

/-- SHA-256 choose function (bitwise complement taken within 32 bits). -/
def chF (x y z : Nat) : Nat := (x &&& y) ^^^ ((x ^^^ 4294967295) &&& z)

/-- SHA-256 majority function. -/
def majF (x y z : Nat) : Nat := (x &&& y) ^^^ (x &&& z) ^^^ (y &&& z)

/-- The 64 SHA-256 round constants of FIPS 180-4, written in decimal. -/
def Kconst : List Nat :=
  [1116352408, 1899447441, 3049323471, 3921009573, 961987163, 1508970993,
   2453635748, 2870763221, 3624381080, 310598401, 607225278, 1426881987,
   1925078388, 2162078206, 2614888103, 3248222580, 3835390401, 4022224774,
   264347078, 604807628, 770255983, 1249150122, 1555081692, 1996064986,
   2554220882, 2821834349, 2952996808, 3210313671, 3336571891, 3584528711,
   113926993, 338241895, 666307205, 773529912, 1294757372, 1396182291,
   1695183700, 1986661051, 2177026350, 2456956037, 2730485921, 2820302411,
   3259730800, 3345764771, 3516065817, 3600352804, 4094571909, 275423344,
   430227734, 506948616, 659060556, 883997877, 958139571, 1322822218,
   1537002063, 1747873779, 1955562222, 2024104815, 2227730452, 2361852424,
   2428436474, 2756734187, 3204031479, 3329325298]

/-- The eight 32-bit words of a SHA-256 state. -/
structure Hash8 where
  h0 : Nat
  h1 : Nat
  h2 : Nat
  h3 : Nat
  h4 : Nat
  h5 : Nat
  h6 : Nat
  h7 : Nat
deriving DecidableEq

/-- The SHA-256 initial hash value of FIPS 180-4, written in decimal. -/
def H0init : Hash8 :=
  ⟨1779033703, 3144134277, 1013904242, 2773480762,
   1359893119, 2600822924, 528734635, 1541459225⟩

/-- Extend the message schedule; the accumulator holds the words produced
so far, most recent first. -/
def scheduleLoop : List Nat → Nat → List Nat
  | acc, 0 => acc.reverse
  | acc, n + 1 =>
      scheduleLoop
        (((ssig1 (acc.getD 1 0) + acc.getD 6 0 + ssig0 (acc.getD 14 0) + acc.getD 15 0) % M32)
          :: acc) n

/-- The 64-word message schedule of one 16-word block. -/
def schedule (block : List Nat) : List Nat := scheduleLoop block.reverse 48

/-- One SHA-256 compression round on the working variables. -/
def roundStep (st : Hash8) (k w : Nat) : Hash8 :=
  let t1 := (st.h7 + bsig1 st.h4 + chF st.h4 st.h5 st.h6 + k + w) % M32
  let t2 := (bsig0 st.h0 + majF st.h0 st.h1 st.h2) % M32
  ⟨(t1 + t2) % M32, st.h0, st.h1, st.h2, (st.h3 + t1) % M32, st.h4, st.h5, st.h6⟩

/-- SHA-256 compression of one 16-word block into the running state. -/
def compressBlock (st : Hash8) (block : List Nat) : Hash8 :=
  let f := ((Kconst.zip (schedule block)).foldl (fun s kw => roundStep s kw.1 kw.2) st)
  ⟨(st.h0 + f.h0) % M32, (st.h1 + f.h1) % M32, (st.h2 + f.h2) % M32, (st.h3 + f.h3) % M32,
   (st.h4 + f.h4) % M32, (st.h5 + f.h5) % M32, (st.h6 + f.h6) % M32, (st.h7 + f.h7) % M32⟩

/-- SHA-256 padding of a byte message: `0x80`, zero bytes up to 56 mod 64,
then the bit length as 8 big-endian bytes. -/
def padMessage (msg : List Nat) : List Nat :=
  let L := msg.length
  let bitLen := 8 * L
  msg ++ 128 :: List.replicate ((119 - L % 64) % 64) 0 ++
    [bitLen / 2 ^ 56 % 256, bitLen / 2 ^ 48 % 256, bitLen / 2 ^ 40 % 256, bitLen / 2 ^ 32 % 256,
     bitLen / 2 ^ 24 % 256, bitLen / 2 ^ 16 % 256, bitLen / 2 ^ 8 % 256, bitLen % 256]

/-- Group bytes into 32-bit big-endian words. -/
def toWords : List Nat → List Nat
  | a :: b :: c :: d :: rest => (((a * 256 + b) * 256 + c) * 256 + d) :: toWords rest
  | _ => []

/-- Group words into 16-word blocks (the input length is a multiple of 16). -/
def toBlocks : List Nat → List (List Nat)
  | w0 :: w1 :: w2 :: w3 :: w4 :: w5 :: w6 :: w7 ::
    w8 :: w9 :: w10 :: w11 :: w12 :: w13 :: w14 :: w15 :: rest =>
      [w0, w1, w2, w3, w4, w5, w6, w7, w8, w9, w10, w11, w12, w13, w14, w15] :: toBlocks rest
  | _ => []

/-- SHA-256 of a byte message, as the eight final state words. -/
def sha256words (msg : List Nat) : Hash8 :=
  (toBlocks (toWords (padMessage msg))).foldl compressBlock H0init

/-- Code point of the lowercase hex digit for a nibble. -/
def hexChar (n : Nat) : Nat := if n < 10 then 48 + n else 87 + n

/-- The eight lowercase hex digits of a 32-bit word, as code points. -/
def wordHex (w : Nat) : List Nat :=
  [hexChar (w / 2 ^ 28 % 16), hexChar (w / 2 ^ 24 % 16), hexChar (w / 2 ^ 20 % 16),
   hexChar (w / 2 ^ 16 % 16), hexChar (w / 2 ^ 12 % 16), hexChar (w / 2 ^ 8 % 16),
   hexChar (w / 2 ^ 4 % 16), hexChar (w % 16)]

/-- `hashlib.sha256(msg).hexdigest()`: the 64 hex-digit code points of the
SHA-256 digest of a byte message. -/
def sha256hex (msg : List Nat) : List Nat :=
  let st := sha256words msg
  wordHex st.h0 ++ wordHex st.h1 ++ wordHex st.h2 ++ wordHex st.h3 ++
  wordHex st.h4 ++ wordHex st.h5 ++ wordHex st.h6 ++ wordHex st.h7

/-! ## The LSB engine (`embed_data_in_image`, `extract_data_from_image`)

A cover image is its channel count (3 = RGB, 4 = RGBA) and the pixels in
traversal order, each pixel the list of its channel bytes in the fixed
order R, G, B, then A when present.  `img.getdata()` is exactly this
pixel list. -/

structure Image where
  channels : Nat
  pixels : List (List Nat)
deriving DecidableEq

/-- Set a channel byte's least significant bit: `(c & 0xFE) | bit`. -/
def setLSB (c : Nat) (b : Bool) : Nat := 2 * (c / 2) + bitVal b

/-- Embed bits into the channels of one pixel, left to right, while bits
remain; returns the new pixel and the unconsumed bits. -/
def embedChannels : List Nat → List Bool → List Nat × List Bool
  | [], bits => ([], bits)
  | c :: cs, [] => (c :: cs, [])
  | c :: cs, b :: bs =>
      let r := embedChannels cs bs
      (setLSB c b :: r.1, r.2)

/-- The embedding loop over the pixel list: each pixel consumes bits into
its channels in order until the bitstream is exhausted; later pixels are
passed through unchanged. -/
def embedPixels : List (List Nat) → List Bool → List (List Nat)
  | [], _ => []
  | p :: ps, bits =>
      let r := embedChannels p bits
      r.1 :: embedPixels ps r.2

/-- The least-significant bits of every channel of every pixel, in
traversal order (the scanning loop of `extract_data_from_image`). -/
def scanLSBs (ps : List (List Nat)) : List Bool :=
  ps.flatMap (fun p => p.map (fun c => c % 2 == 1))

/-- The password gate of `embed_data_in_image`: a non-empty password
prepends the 512-bit encoding of its SHA-256 hex digest. -/
def prependGate (pw : List Nat) (data : List Bool) : List Bool :=
  if pw = [] then data else text_to_binary (sha256hex pw) ++ data

/-- `SteganographyEngine.embed_data_in_image`: prepend the password
digest when a password is given, append the 16-bit delimiter, fail when
the result exceeds `pixelCount * channels`, otherwise write the bits into
the channel LSBs.  `none` models returning `False` (no output written). -/
def embed_data_in_image (img : Image) (data : List Bool) (pw : List Nat) : Option Image :=
  if (prependGate pw data ++ delimiter).length > img.pixels.length * img.channels then none
  else some ⟨img.channels, embedPixels img.pixels (prependGate pw data ++ delimiter)⟩

/-- `SteganographyEngine.extract_data_from_image`: scan every channel LSB
of the whole image, find the first occurrence of the delimiter (`none`
when absent), take the bits before it, and when a password is given
require and strip a matching 512-bit digest prefix. -/
def extract_data_from_image (img : Image) (pw : List Nat) : Option (List Bool) :=
  (findSub delimiter (scanLSBs img.pixels)).bind fun idx =>
    if pw = [] then some ((scanLSBs img.pixels).take idx)
    else
      if ((scanLSBs img.pixels).take idx).length <
          (text_to_binary (sha256hex pw)).length then none
      else if binary_to_text (((scanLSBs img.pixels).take idx).take
          (text_to_binary (sha256hex pw)).length) ≠ sha256hex pw then none
      else some (((scanLSBs img.pixels).take idx).drop
          (text_to_binary (sha256hex pw)).length)

/-! ## The file frame (`file_to_binary` and the GUI-side parse) -/

/-- The four bytes of `struct.pack('<I', n)` (little-endian; faithful for
`n < 2^32`, where Python would otherwise raise). -/
def u32LEbytes (n : Nat) : List Nat :=
  [n % 256, n / 256 % 256, n / 65536 % 256, n / 16777216 % 256]

/-- `SteganographyEngine.file_to_binary`, on the filename's code points
and the file's content bytes: the 8-byte header
`struct.pack('<II', len(filename), len(content))`, then the filename
bits, then the content bits. -/
def file_to_binary (filename content : List Nat) : List Bool :=
  text_to_binary (u32LEbytes filename.length ++ u32LEbytes content.length) ++
    text_to_binary filename ++ text_to_binary content

/-- The byte list built by
`bytes(int(s[i:i+8], 2) for i in range(0, len(s), 8))` in
`SteganographyGUI.extract_file_data`: unlike `binary_to_text`, a trailing
group shorter than 8 bits is also converted. -/
def bitsToBytesGUI : List Bool → List Nat
  | b0 :: b1 :: b2 :: b3 :: b4 :: b5 :: b6 :: b7 :: rest =>
      bitsVal [b0, b1, b2, b3, b4, b5, b6, b7] :: bitsToBytesGUI rest
  | [] => []
  | l => [bitsVal l]

/-- Decode the 8-byte frame header from the first 64 bits:
`struct.unpack('<II', header_bytes)`. -/
def headerOf (bits : List Bool) : Nat × Nat :=
  let hb := bitsToBytesGUI (bits.take 64)
  (hb.getD 0 0 + 256 * hb.getD 1 0 + 65536 * hb.getD 2 0 + 16777216 * hb.getD 3 0,
   hb.getD 4 0 + 256 * hb.getD 5 0 + 65536 * hb.getD 6 0 + 16777216 * hb.getD 7 0)

/-- Result of the GUI-side interpretation of an extracted bitstream. -/
inductive ExtractResult where
  | file (filename : List Nat) (content : List Nat)
  | text (t : List Nat)
deriving DecidableEq

/-- `SteganographyGUI.extract_file_data`: slice the filename and content
bits after the 64-bit header according to the declared lengths (Python
slicing clips both slices to the bits actually present) and decode them. -/
def extract_file_data (bits : List Bool) : ExtractResult :=
  ExtractResult.file
    (binary_to_text ((bits.drop 64).take ((headerOf bits).1 * 8)))
    (bitsToBytesGUI ((bits.drop (64 + (headerOf bits).1 * 8)).take ((headerOf bits).2 * 8)))

/-- The file-versus-text dispatch of `SteganographyGUI.extract_data`: with
at least 64 bits and a plausible header (`0 < filenameLength < 1000`,
`0 < contentLength`) parse a file frame, otherwise decode as text. -/
def extract_data (bits : List Bool) : ExtractResult :=
  if 64 ≤ bits.length then
    if 0 < (headerOf bits).1 ∧ (headerOf bits).1 < 1000 ∧ 0 < (headerOf bits).2 then
      extract_file_data bits
    else ExtractResult.text (binary_to_text bits)
  else ExtractResult.text (binary_to_text bits)

/-! ## Lemmas about the bit codec -/

theorem charBits_length_of_lt (c : Nat) (h : c < 256) : (charBits c).length = 8 := by
  revert h
  revert c
  decide

theorem bitsVal_charBits (c : Nat) (h : c < 256) : bitsVal (charBits c) = c := by
  revert h
  revert c
  decide

theorem text_to_binary_cons (c : Nat) (t : List Nat) :
    text_to_binary (c :: t) = charBits c ++ text_to_binary t := rfl

theorem text_to_binary_append (a b : List Nat) :
    text_to_binary (a ++ b) = text_to_binary a ++ text_to_binary b := by
  simp [text_to_binary]

theorem text_to_binary_length (t : List Nat) (h : ∀ c ∈ t, c < 256) :
    (text_to_binary t).length = 8 * t.length := by
  induction t with
  | nil => rfl
  | cons c t ih =>
      rw [text_to_binary_cons, List.length_append,
        charBits_length_of_lt c (h c (by simp)), ih (fun x hx => h x (by simp [hx]))]
      simp [List.length_cons]
      ring

theorem binary_to_text_append8 (l r : List Bool) (h : l.length = 8) :
    binary_to_text (l ++ r) = bitsVal l :: binary_to_text r := by
  match l, h with
  | [b0, b1, b2, b3, b4, b5, b6, b7], _ => rfl

theorem binary_to_text_t2b_append (t : List Nat) (r : List Bool) (h : ∀ c ∈ t, c < 256) :
    binary_to_text (text_to_binary t ++ r) = t ++ binary_to_text r := by
  induction t with
  | nil => rfl
  | cons c t ih =>
      have hc : c < 256 := h c (by simp)
      rw [text_to_binary_cons, List.append_assoc,
        binary_to_text_append8 _ _ (charBits_length_of_lt c hc),
        bitsVal_charBits c hc, ih (fun x hx => h x (by simp [hx]))]
      rfl

theorem binary_to_text_nil : binary_to_text [] = [] := rfl

theorem binary_to_text_t2b (t : List Nat) (h : ∀ c ∈ t, c < 256) :
    binary_to_text (text_to_binary t) = t := by
  have := binary_to_text_t2b_append t [] h
  simpa [binary_to_text_nil] using this

/-! ## Lemmas about `startsWith` and `findSub` -/

theorem startsWith_nil (l : List Bool) : startsWith l [] = true := by
  cases l <;> rfl

theorem startsWith_append_self (p r : List Bool) : startsWith (p ++ r) p = true := by
  induction p with
  | nil => simp [startsWith_nil]
  | cons a l ih => simp [startsWith, ih]

theorem startsWith_le_length (l p : List Bool) (h : startsWith l p = true) :
    p.length ≤ l.length := by
  induction p generalizing l with
  | nil => simp
  | cons a ps ih =>
      cases l with
      | nil => simp [startsWith] at h
      | cons b l =>
          simp only [startsWith, Bool.and_eq_true] at h
          simpa [List.length_cons] using ih l h.2

theorem startsWith_getElem? (l p : List Bool) (h : startsWith l p = true)
    (k : Nat) (hk : k < p.length) : l[k]? = p[k]? := by
  induction p generalizing l k with
  | nil => simp at hk
  | cons a ps ih =>
      cases l with
      | nil => simp [startsWith] at h
      | cons b l =>
          simp only [startsWith, Bool.and_eq_true, beq_iff_eq] at h
          cases k with
          | zero => simp [h.1]
          | succ k =>
              simp only [List.getElem?_cons_succ]
              exact ih l h.2 k (by simpa using hk)

theorem startsWith_append_left (a b p : List Bool) (h : p.length ≤ a.length) :
    startsWith (a ++ b) p = startsWith a p := by
  induction p generalizing a with
  | nil => simp [startsWith]
  | cons x ps ih =>
      cases a with
      | nil => simp at h
      | cons y l =>
          simp only [List.cons_append, startsWith, List.append_eq]
          rw [ih l (by simpa using h)]

theorem findSub_eq_some (pat l : List Bool) (i : Nat)
    (h1 : startsWith (l.drop i) pat = true)
    (h2 : ∀ j < i, startsWith (l.drop j) pat = false) :
    findSub pat l = some i := by
  induction l generalizing i with
  | nil =>
      cases i with
      | zero => simpa [findSub] using h1
      | succ k =>
          exfalso
          have h0 := h2 0 (Nat.succ_pos k)
          simp only [List.drop_zero] at h0
          simp only [List.drop_nil] at h1
          rw [h0] at h1
          exact Bool.false_ne_true h1
  | cons b l ih =>
      cases i with
      | zero => simp only [List.drop_zero] at h1; simp [findSub, h1]
      | succ k =>
          have h0 : startsWith (b :: l) pat = false := by simpa using h2 0 (Nat.succ_pos k)
          have hrec : findSub pat l = some k := by
            apply ih k (by simpa using h1)
            intro j hj
            simpa using h2 (j + 1) (by omega)
          simp [findSub, h0, hrec]

theorem findSub_some (pat l : List Bool) (i : Nat) (h : findSub pat l = some i) :
    startsWith (l.drop i) pat = true ∧ ∀ j < i, startsWith (l.drop j) pat = false := by
  induction l generalizing i with
  | nil =>
      by_cases hs : startsWith [] pat = true
      · simp [findSub, hs] at h
        subst h
        exact ⟨hs, by omega⟩
      · simp [findSub, Bool.of_not_eq_true hs] at h
  | cons b l ih =>
      by_cases hs : startsWith (b :: l) pat = true
      · simp [findSub, hs] at h
        subst h
        exact ⟨hs, by omega⟩
      · have hs' : startsWith (b :: l) pat = false := Bool.of_not_eq_true hs
        simp only [findSub, hs', if_false, Bool.false_eq_true, Option.map_eq_some'] at h
        obtain ⟨k, hk, rfl⟩ := h
        obtain ⟨g1, g2⟩ := ih k hk
        refine ⟨by simpa using g1, ?_⟩
        intro j hj
        cases j with
        | zero => simpa using hs'
        | succ j => simpa using g2 j (by omega)

theorem findSub_none (pat l : List Bool) (h : findSub pat l = none) :
    ∀ j, startsWith (l.drop j) pat = false := by
  induction l with
  | nil =>
      intro j
      by_cases hs : startsWith [] pat = true
      · simp [findSub, hs] at h
      · simp [Bool.of_not_eq_true hs]
  | cons b l ih =>
      intro j
      by_cases hs : startsWith (b :: l) pat = true
      · simp [findSub, hs] at h
      · have hs' : startsWith (b :: l) pat = false := Bool.of_not_eq_true hs
        simp only [findSub, hs', if_false, Bool.false_eq_true, Option.map_eq_none'] at h
        cases j with
        | zero => simpa using hs'
        | succ j => simpa using ih h j

theorem findSub_of_none (pat l : List Bool) (h : ∀ j, startsWith (l.drop j) pat = false) :
    findSub pat l = none := by
  cases hf : findSub pat l with
  | none => rfl
  | some i =>
      have := (findSub_some pat l i hf).1
      rw [h i] at this
      exact absurd this (by simp)

/-! ## Lemmas about the delimiter pattern -/

theorem delimiter_length : delimiter.length = 16 := by decide

theorem delimiter_get_lt15 : ∀ k, k < 15 → delimiter[k]? = some true := by decide

theorem delimiter_get_15 : delimiter[15]? = some false := by decide

/-- No window that begins strictly inside `data1` and runs past its end can
match the delimiter: its last position falls on one of the delimiter's
fifteen leading one bits, but the delimiter itself ends in a zero bit. -/
theorem startsWith_straddle (data1 rest : List Bool) (j : Nat)
    (hj : j < data1.length) (hwin : data1.length < j + 16) :
    startsWith ((data1 ++ (delimiter ++ rest)).drop j) delimiter = false := by
  by_contra hne
  have hs : startsWith ((data1 ++ (delimiter ++ rest)).drop j) delimiter = true :=
    Bool.of_not_eq_false hne
  have h15 := startsWith_getElem? _ _ hs 15 (by rw [delimiter_length]; omega)
  rw [delimiter_get_15] at h15
  rw [List.getElem?_drop] at h15
  have hoff : j + 15 - data1.length < 15 := by omega
  rw [List.getElem?_append_right (by omega : data1.length ≤ j + 15),
    List.getElem?_append_left (by rw [delimiter_length]; omega),
    delimiter_get_lt15 _ hoff] at h15
  exact absurd h15 (by simp)

/-- If the delimiter does not occur inside `data1`, its first occurrence in
`data1 ++ delimiter ++ rest` is exactly at position `data1.length`. -/
theorem findSub_delimiter_embed (data1 rest : List Bool)
    (hnd : ∀ j < data1.length, startsWith (data1.drop j) delimiter = false) :
    findSub delimiter (data1 ++ (delimiter ++ rest)) = some data1.length := by
  apply findSub_eq_some
  · rw [List.drop_left]
    exact startsWith_append_self _ _
  · intro j hj
    by_cases hwin : j + 16 ≤ data1.length
    · rw [List.drop_append_eq_append_drop,
        Nat.sub_eq_zero_of_le (Nat.le_of_lt hj), List.drop_zero,
        startsWith_append_left _ _ _ (by
          rw [delimiter_length, List.length_drop]; omega)]
      exact hnd j hj
    · exact startsWith_straddle data1 rest j hj (by omega)

/-! ## Lemmas about the embedding loop -/

theorem bitVal_mod_two (b : Bool) : bitVal b % 2 = bitVal b := by cases b <;> rfl

theorem setLSB_lsb (c : Nat) (b : Bool) : ((setLSB c b % 2 == 1) : Bool) = b := by
  unfold setLSB
  rw [Nat.mul_add_mod, bitVal_mod_two]
  cases b <;> rfl

theorem setLSB_div2 (c : Nat) (b : Bool) : setLSB c b / 2 = c / 2 := by
  unfold setLSB
  rw [Nat.mul_add_div (by omega)]
  cases b <;> rfl

theorem embedChannels_nil_bits (p : List Nat) : embedChannels p [] = (p, []) := by
  cases p <;> rfl

theorem embedChannels_fst_length (p : List Nat) (bits : List Bool) :
    (embedChannels p bits).1.length = p.length := by
  induction p generalizing bits with
  | nil => rfl
  | cons c cs ih =>
      cases bits with
      | nil => rfl
      | cons b bs => simp [embedChannels, ih]

theorem embedChannels_snd (p : List Nat) (bits : List Bool) :
    (embedChannels p bits).2 = bits.drop p.length := by
  induction p generalizing bits with
  | nil => rfl
  | cons c cs ih =>
      cases bits with
      | nil => simp [embedChannels]
      | cons b bs => simp [embedChannels, ih]

theorem embedChannels_lsb (p : List Nat) (bits : List Bool) :
    (embedChannels p bits).1.map (fun c => ((c % 2 == 1) : Bool)) =
      bits.take p.length ++ (p.map (fun c => ((c % 2 == 1) : Bool))).drop bits.length := by
  induction p generalizing bits with
  | nil => simp [embedChannels]
  | cons c cs ih =>
      cases bits with
      | nil => simp [embedChannels]
      | cons b bs =>
          simp only [embedChannels, List.map_cons, List.take_succ_cons, List.length_cons,
            List.drop_succ_cons, setLSB_lsb, List.cons_append]
          rw [ih]

theorem embedChannels_div2 (p : List Nat) (bits : List Bool) :
    (embedChannels p bits).1.map (· / 2) = p.map (· / 2) := by
  induction p generalizing bits with
  | nil => rfl
  | cons c cs ih =>
      cases bits with
      | nil => rfl
      | cons b bs => simp [embedChannels, setLSB_div2, ih]

theorem embedPixels_nil_bits (ps : List (List Nat)) : embedPixels ps [] = ps := by
  induction ps with
  | nil => rfl
  | cons p ps ih => simp [embedPixels, embedChannels_nil_bits, ih]

theorem embedPixels_length (ps : List (List Nat)) (bits : List Bool) :
    (embedPixels ps bits).length = ps.length := by
  induction ps generalizing bits with
  | nil => rfl
  | cons p ps ih => simp [embedPixels, ih]

theorem scanLSBs_nil : scanLSBs [] = [] := rfl

theorem scanLSBs_cons (p : List Nat) (ps : List (List Nat)) :
    scanLSBs (p :: ps) = p.map (fun c => ((c % 2 == 1) : Bool)) ++ scanLSBs ps := by
  simp [scanLSBs]

theorem scanLSBs_length (ps : List (List Nat)) :
    (scanLSBs ps).length = (ps.map List.length).sum := by
  induction ps with
  | nil => rfl
  | cons p ps ih => simp [scanLSBs_cons, ih]

/-- Core of the embedding: the channel LSBs of the embedded pixel list are
the embedded bits (clipped to capacity) followed by the untouched tail of
the original LSBs. -/
theorem scanLSBs_embedPixels (ps : List (List Nat)) (bits : List Bool) :
    scanLSBs (embedPixels ps bits) =
      bits.take (scanLSBs ps).length ++ (scanLSBs ps).drop bits.length := by
  induction ps generalizing bits with
  | nil => simp [embedPixels, scanLSBs_nil]
  | cons p ps ih =>
      simp only [embedPixels, scanLSBs_cons]
      rw [embedChannels_lsb, embedChannels_snd, ih]
      rw [List.length_append, List.length_map, List.take_add,
        List.drop_append_eq_append_drop, List.length_map, List.length_drop]
      by_cases hl : bits.length ≤ p.length
      · have h2 : bits.drop p.length = [] := List.drop_eq_nil_of_le hl
        have h3 : bits.length - p.length = 0 := by omega
        rw [h2, h3]
        simp [List.append_assoc]
      · push_neg at hl
        have h2 : (p.map (fun c => ((c % 2 == 1) : Bool))).drop bits.length = [] := by
          apply List.drop_eq_nil_of_le
          rw [List.length_map]
          omega
        rw [h2]
        simp [List.append_assoc]

/-- Pixels that begin after the bitstream is exhausted are unchanged. -/
theorem embedPixels_drop (ps : List (List Nat)) (bits : List Bool) (k : Nat)
    (h : bits.length ≤ ((ps.take k).map List.length).sum) :
    (embedPixels ps bits).drop k = ps.drop k := by
  induction ps generalizing bits k with
  | nil => simp [embedPixels]
  | cons p ps ih =>
      cases k with
      | zero =>
          simp only [List.take_zero, List.map_nil, List.sum_nil, Nat.le_zero,
            List.length_eq_zero] at h
          rw [h, embedPixels_nil_bits]
      | succ k =>
          simp only [List.take_succ_cons, List.map_cons, List.sum_cons] at h
          simp only [embedPixels, List.drop_succ_cons]
          apply ih
          rw [embedChannels_snd, List.length_drop]
          omega

theorem embedPixels_div2 (ps : List (List Nat)) (bits : List Bool) :
    (embedPixels ps bits).map (List.map (· / 2)) = ps.map (List.map (· / 2)) := by
  induction ps generalizing bits with
  | nil => rfl
  | cons p ps ih => simp [embedPixels, embedChannels_div2, ih]

/-- Under the well-formedness assumption (every pixel has `n` channels)
the scanned length is `pixelCount * n`. -/
theorem scanLSBs_length_wf (ps : List (List Nat)) (n : Nat)
    (h : ∀ p ∈ ps, p.length = n) : (scanLSBs ps).length = ps.length * n := by
  rw [scanLSBs_length]
  induction ps with
  | nil => simp
  | cons p ps ih =>
      simp only [List.map_cons, List.sum_cons, List.length_cons]
      rw [h p (by simp), ih (fun q hq => h q (by simp [hq]))]
      ring

theorem take_map_length_sum_wf (ps : List (List Nat)) (n k : Nat)
    (h : ∀ p ∈ ps, p.length = n) :
    ((ps.take k).map List.length).sum = min k ps.length * n := by
  induction ps generalizing k with
  | nil => simp
  | cons p ps ih =>
      cases k with
      | zero => simp
      | succ k =>
          simp only [List.take_succ_cons, List.map_cons, List.sum_cons]
          rw [h p (by simp), ih k (fun q hq => h q (by simp [hq]))]
          simp only [List.length_cons, Nat.succ_min_succ, Nat.succ_eq_add_one]
          ring

/-! ## Lemmas about the password digest -/

/-- `c` is the code point of an ASCII lowercase hex digit. -/
def isHexDigitCode (c : Nat) : Prop := (48 ≤ c ∧ c ≤ 57) ∨ (97 ≤ c ∧ c ≤ 102)

instance (c : Nat) : Decidable (isHexDigitCode c) := by
  unfold isHexDigitCode
  infer_instance

theorem hexChar_isHexDigit (n : Nat) : isHexDigitCode (hexChar (n % 16)) := by
  have h : n % 16 < 16 := Nat.mod_lt n (by omega)
  revert h
  generalize n % 16 = m
  revert m
  decide

theorem wordHex_chars (w : Nat) : ∀ c ∈ wordHex w, isHexDigitCode c := by
  intro c hc
  simp only [wordHex, List.mem_cons, List.not_mem_nil, or_false] at hc
  rcases hc with h | h | h | h | h | h | h | h <;> rw [h] <;> exact hexChar_isHexDigit _

theorem wordHex_length (w : Nat) : (wordHex w).length = 8 := rfl

theorem sha256hex_chars (msg : List Nat) : ∀ c ∈ sha256hex msg, isHexDigitCode c := by
  intro c hc
  simp only [sha256hex, List.mem_append] at hc
  rcases hc with ((((((h | h) | h) | h) | h) | h) | h) | h <;> exact wordHex_chars _ c h

theorem isHexDigitCode_lt128 (c : Nat) (h : isHexDigitCode c) : c < 128 := by
  rcases h with ⟨_, h⟩ | ⟨_, h⟩ <;> omega

theorem sha256hex_lt256 (msg : List Nat) : ∀ c ∈ sha256hex msg, c < 256 := by
  intro c hc
  have := isHexDigitCode_lt128 c (sha256hex_chars msg c hc)
  omega

theorem sha256hex_length (msg : List Nat) : (sha256hex msg).length = 64 := by
  simp [sha256hex, wordHex]

theorem digestBits_length (pw : List Nat) :
    (text_to_binary (sha256hex pw)).length = 512 := by
  rw [text_to_binary_length _ (sha256hex_lt256 pw), sha256hex_length]

/-- The first bit of each 8-bit group of the encoding of a string of
characters below 128 is zero. -/
theorem t2b_byte_msb_zero (t : List Nat) (h : ∀ c ∈ t, c < 128) (q : Nat)
    (hq : 8 * q < (text_to_binary t).length) :
    (text_to_binary t)[8 * q]? = some false := by
  induction t generalizing q with
  | nil => simp [text_to_binary] at hq
  | cons c t ih =>
      have hc : c < 128 := h c (by simp)
      have hlen : (charBits c).length = 8 := charBits_length_of_lt c (by omega)
      rw [text_to_binary_cons]
      cases q with
      | zero =>
          rw [List.getElem?_append_left (by omega)]
          have hhead : ∀ c, c < 128 → (charBits c)[0]? = some false := by decide
          exact hhead c hc
      | succ q =>
          rw [List.getElem?_append_right (by omega)]
          have harith : 8 * (q + 1) - (charBits c).length = 8 * q := by omega
          rw [harith]
          apply ih (fun x hx => h x (by simp [hx]))
          rw [text_to_binary_cons, List.length_append, hlen] at hq
          omega

/-- The delimiter never occurs in the bit encoding of a string of
characters below 128: every 16-bit window contains the zero leading bit of
some 8-bit group among its first 15 positions, while the delimiter's first
15 bits are all ones. -/
theorem no_delimiter_in_low_bits (t : List Nat) (h : ∀ c ∈ t, c < 128) (i : Nat) :
    startsWith ((text_to_binary t).drop i) delimiter = false := by
  by_contra hne
  have hs : startsWith ((text_to_binary t).drop i) delimiter = true :=
    Bool.of_not_eq_false hne
  have hlen := startsWith_le_length _ _ hs
  rw [delimiter_length, List.length_drop] at hlen
  set q := (i + 7) / 8 with hq
  have hm1 : i ≤ 8 * q := by omega
  have hm2 : 8 * q ≤ i + 7 := by omega
  have hk := startsWith_getElem? _ _ hs (8 * q - i) (by rw [delimiter_length]; omega)
  rw [List.getElem?_drop, delimiter_get_lt15 _ (by omega)] at hk
  have harith : i + (8 * q - i) = 8 * q := by omega
  rw [harith] at hk
  rw [t2b_byte_msb_zero t h q (by omega)] at hk
  exact absurd hk (by simp)

/-- The delimiter never occurs anywhere in the 512-bit digest prefix. -/
theorem no_delimiter_in_digest (pw : List Nat) (i : Nat) :
    startsWith ((text_to_binary (sha256hex pw)).drop i) delimiter = false :=
  no_delimiter_in_low_bits _ (fun c hc => isHexDigitCode_lt128 c (sha256hex_chars pw c hc)) i

/-! ## Lemmas about `natToBin` (the `format(n, 'b')` representation) -/

/-- Value of a bit list read least significant bit first. -/
def lsbVal (l : List Bool) : Nat := l.foldr (fun b a => 2 * a + bitVal b) 0

theorem natBitsAux_zero (f : Nat) : natBitsAux f 0 = [] := by
  cases f <;> rfl

theorem natBitsAux_fuel (f1 f2 n : Nat) (h1 : n ≤ f1) (h2 : n ≤ f2) :
    natBitsAux f1 n = natBitsAux f2 n := by
  induction f1 generalizing f2 n with
  | zero =>
      have : n = 0 := by omega
      subst this
      rw [natBitsAux_zero, natBitsAux_zero]
  | succ f ih =>
      cases n with
      | zero => rw [natBitsAux_zero, natBitsAux_zero]
      | succ m =>
          cases f2 with
          | zero => omega
          | succ g =>
              show ((m + 1) % 2 == 1) :: natBitsAux f ((m + 1) / 2) =
                ((m + 1) % 2 == 1) :: natBitsAux g ((m + 1) / 2)
              rw [ih g ((m + 1) / 2) (by omega) (by omega)]

theorem lsbVal_natBitsAux (f n : Nat) (h : n ≤ f) : lsbVal (natBitsAux f n) = n := by
  induction f generalizing n with
  | zero =>
      have : n = 0 := by omega
      subst this
      rfl
  | succ f ih =>
      cases n with
      | zero => rw [natBitsAux_zero]; rfl
      | succ m =>
          show lsbVal (((m + 1) % 2 == 1) :: natBitsAux f ((m + 1) / 2)) = m + 1
          have hv : lsbVal (natBitsAux f ((m + 1) / 2)) = (m + 1) / 2 := ih _ (by omega)
          simp only [lsbVal, List.foldr_cons] at hv ⊢
          rw [hv]
          rcases Nat.even_or_odd (m + 1) with he | ho
          · have : (m + 1) % 2 = 0 := Nat.even_iff.mp he
            simp [this, bitVal]
            omega
          · have : (m + 1) % 2 = 1 := Nat.odd_iff.mp ho
            simp [this, bitVal]
            omega

theorem natBitsAux_length_ge (f n k : Nat) (hf : n ≤ f) (h : 2 ^ k ≤ n) :
    k + 1 ≤ (natBitsAux f n).length := by
  induction f generalizing n k with
  | zero =>
      exfalso
      have := Nat.one_le_two_pow (n := k)
      omega
  | succ f ih =>
      cases n with
      | zero =>
          exfalso
          have := Nat.one_le_two_pow (n := k)
          omega
      | succ m =>
          show k + 1 ≤ (((m + 1) % 2 == 1) :: natBitsAux f ((m + 1) / 2)).length
          rw [List.length_cons]
          cases k with
          | zero => omega
          | succ j =>
              have hj : 2 ^ j ≤ (m + 1) / 2 := by
                rw [Nat.le_div_iff_mul_le (by omega)]
                rw [pow_succ] at h
                omega
              have := ih ((m + 1) / 2) j (by omega) hj
              omega

theorem natBitsAux_length_le (f n k : Nat) (hf : n ≤ f) (h : n < 2 ^ k) :
    (natBitsAux f n).length ≤ k := by
  induction f generalizing n k with
  | zero =>
      have : n = 0 := by omega
      subst this
      rw [natBitsAux_zero]
      simp
  | succ f ih =>
      cases n with
      | zero => rw [natBitsAux_zero]; simp
      | succ m =>
          show (((m + 1) % 2 == 1) :: natBitsAux f ((m + 1) / 2)).length ≤ k
          rw [List.length_cons]
          cases k with
          | zero => simp at h
          | succ j =>
              have hj : (m + 1) / 2 < 2 ^ j := by
                rw [Nat.div_lt_iff_lt_mul (by omega)]
                rw [pow_succ] at h
                omega
              have := ih ((m + 1) / 2) j (by omega) hj
              omega

theorem bitsVal_reverse (l : List Bool) : bitsVal l.reverse = lsbVal l := by
  simp only [bitsVal, lsbVal, List.foldl_reverse]

theorem bitsVal_natToBin (n : Nat) : bitsVal (natToBin n) = n := by
  unfold natToBin
  by_cases h : n = 0
  · subst h; rfl
  · rw [if_neg h, bitsVal_reverse, lsbVal_natBitsAux n n (le_refl n)]

theorem natToBin_length_ge (n k : Nat) (h : 2 ^ k ≤ n) :
    k + 1 ≤ (natToBin n).length := by
  unfold natToBin
  have hne : n ≠ 0 := by
    have := Nat.one_le_two_pow (n := k)
    omega
  rw [if_neg hne, List.length_reverse]
  exact natBitsAux_length_ge n n k (le_refl n) h

theorem natToBin_length_le (n k : Nat) (hn : 0 < n) (h : n < 2 ^ k) :
    (natToBin n).length ≤ k := by
  unfold natToBin
  rw [if_neg (by omega), List.length_reverse]
  exact natBitsAux_length_le n n k (le_refl n) h

theorem charBits_eq_natToBin_of_ge (c : Nat) (h : 256 ≤ c) :
    charBits c = natToBin c := by
  unfold charBits
  have h9 : 9 ≤ (natToBin c).length := natToBin_length_ge c 8 (by norm_num; omega)
  have : 8 - (natToBin c).length = 0 := by omega
  rw [this]
  rfl

theorem charBits_length_ge_of_ge (c : Nat) (h : 256 ≤ c) :
    9 ≤ (charBits c).length := by
  rw [charBits_eq_natToBin_of_ge c h]
  exact natToBin_length_ge c 8 (by norm_num; omega)

theorem charBits_length_ge8 (c : Nat) : 8 ≤ (charBits c).length := by
  unfold charBits
  rw [List.length_append, List.length_replicate]
  omega

/-! ## Helper facts for the claim theorems -/

theorem prependGate_length (pw : List Nat) (data : List Bool) :
    (prependGate pw data).length = (if pw = [] then 0 else 512) + data.length := by
  unfold prependGate
  by_cases h : pw = []
  · simp [h]
  · rw [if_neg h, if_neg h, List.length_append, digestBits_length]

theorem embed_dwd_length (pw : List Nat) (data : List Bool) :
    (prependGate pw data ++ delimiter).length =
      (if pw = [] then 0 else 512) + data.length + 16 := by
  rw [List.length_append, delimiter_length, prependGate_length]

/-! ## Claim theorems -/

/-- Claim C2: embedding is all-or-nothing — the capacity comparison guards
the whole embedding, and when the required bits exceed
`pixelCount * channelCount` the embed call returns the failure value
(`none`: no pixel written, no output produced). -/
theorem c2_embed_all_or_nothing (img : Image) (data : List Bool) (pw : List Nat)
    (h : img.pixels.length * img.channels <
      (if pw = [] then 0 else 512) + data.length + 16) :
    embed_data_in_image img data pw = none := by
  unfold embed_data_in_image
  rw [if_pos (by rw [embed_dwd_length]; omega)]

/-- Witness for C2: a single-RGB-pixel image cannot hold even the bare
16-bit delimiter. -/
theorem c2_witness : embed_data_in_image ⟨3, [[0, 0, 0]]⟩ [] [] = none :=
  c2_embed_all_or_nothing ⟨3, [[0, 0, 0]]⟩ [] [] (by decide)

/-- Claim C6: embedding succeeds exactly when the total bit count
(optional 512 digest bits, payload bits, 16 delimiter bits) fits
`pixelCount * channelCount`; concretely, on a 100-pixel RGB image
(capacity 300), 284 payload bits (300 total) embed while 285 (301 total)
fail. -/
theorem c6_capacity_boundary :
    (∀ (img : Image) (data : List Bool) (pw : List Nat),
      (embed_data_in_image img data pw).isSome ↔
        (if pw = [] then 0 else 512) + data.length + 16 ≤
          img.pixels.length * img.channels)
    ∧ (embed_data_in_image ⟨3, List.replicate 100 [0, 0, 0]⟩
        (List.replicate 284 false) []).isSome = true
    ∧ embed_data_in_image ⟨3, List.replicate 100 [0, 0, 0]⟩
        (List.replicate 285 false) [] = none := by
  refine ⟨?_, by decide, by decide⟩
  intro img data pw
  unfold embed_data_in_image
  by_cases h : (prependGate pw data ++ delimiter).length >
      img.pixels.length * img.channels
  · rw [if_pos h]
    rw [embed_dwd_length] at h
    simp
    omega
  · rw [if_neg h]
    rw [embed_dwd_length] at h
    simp
    omega

/-- Claim C10: the delimiter pattern never occurs inside the 512-bit
digest prefix: every digest character is an ASCII hex digit, whose 8-bit
encoding starts with a zero bit, so no 16-bit window of the digest bits
matches `1111111111111110`. -/
theorem c10_no_delimiter_in_digest_bits (pw : List Nat) :
    (∀ c ∈ sha256hex pw, isHexDigitCode c) ∧
    ∀ i, startsWith ((text_to_binary (sha256hex pw)).drop i) delimiter = false :=
  ⟨sha256hex_chars pw, no_delimiter_in_digest pw⟩

/-- Witness for C10 at the password `"a"` (`99` is the code of the hex
digit `c`, the first digest character of `sha256("a")`). -/
theorem c10_witness :
    isHexDigitCode 99 ∧
    startsWith ((text_to_binary (sha256hex [97])).drop 0) delimiter = false :=
  ⟨(c10_no_delimiter_in_digest_bits [97]).1 99 (by decide),
   (c10_no_delimiter_in_digest_bits [97]).2 0⟩

/-- Claim C4: extraction scans the LSB of every channel of every pixel
(this is `scanLSBs` over the whole pixel list) and truncates at the first
occurrence of the 16-bit delimiter: when the pattern is absent (for any
password) the result is the failure value, and an extracted bitstream `d`
is exactly the scanned prefix before the first delimiter occurrence — in
particular a delimiter occurring early inside the payload bits cuts the
extraction short there. -/
theorem c4_extract_first_delimiter (img : Image) :
    (∀ pw, (∀ j, startsWith ((scanLSBs img.pixels).drop j) delimiter = false) →
        extract_data_from_image img pw = none)
    ∧ (∀ d, extract_data_from_image img [] = some d →
        d = (scanLSBs img.pixels).take d.length
        ∧ startsWith ((scanLSBs img.pixels).drop d.length) delimiter = true
        ∧ ∀ j < d.length, startsWith ((scanLSBs img.pixels).drop j) delimiter = false) := by
  constructor
  · intro pw h
    unfold extract_data_from_image
    rw [findSub_of_none _ _ h]
    rfl
  · intro d hd
    unfold extract_data_from_image at hd
    cases hf : findSub delimiter (scanLSBs img.pixels) with
    | none => rw [hf] at hd; exact absurd hd (by simp)
    | some idx =>
        rw [hf] at hd
        have hd' : (scanLSBs img.pixels).take idx = d := by simpa using hd
        obtain ⟨hocc, hbefore⟩ := findSub_some _ _ _ hf
        have hle : idx ≤ (scanLSBs img.pixels).length := by
          have := startsWith_le_length _ _ hocc
          rw [delimiter_length, List.length_drop] at this
          omega
        subst hd'
        have hdlen : ((scanLSBs img.pixels).take idx).length = idx := by
          rw [List.length_take]
          omega
        rw [hdlen]
        exact ⟨rfl, hocc, hbefore⟩

/-- Witness for C4: a six-RGB-pixel image whose LSBs are exactly the
delimiter followed by two zero bits extracts the empty bitstream, and an
all-zero image extracts nothing. -/
theorem c4_witness :
    extract_data_from_image ⟨3, [[1, 1, 1], [1, 1, 1], [1, 1, 1], [1, 1, 1], [1, 1, 1],
      [0, 0, 0]]⟩ [] = some []
    ∧ ([] : List Bool) = (scanLSBs [[1, 1, 1], [1, 1, 1], [1, 1, 1], [1, 1, 1], [1, 1, 1],
      [0, 0, 0]]).take ([] : List Bool).length
    ∧ extract_data_from_image ⟨3, [[0, 0, 0]]⟩ [42] = none := by
  refine ⟨by decide, ?_, ?_⟩
  · exact ((c4_extract_first_delimiter ⟨3, [[1, 1, 1], [1, 1, 1], [1, 1, 1], [1, 1, 1],
      [1, 1, 1], [0, 0, 0]]⟩).2 [] (by decide)).1
  · exact (c4_extract_first_delimiter ⟨3, [[0, 0, 0]]⟩).1 [42]
      (findSub_none _ _ (by decide))

/-- Claim C5: within capacity, embedding changes each channel byte only in
its least significant bit (the upper seven bits — the byte divided by 2 —
are untouched), consumes the bits across the channels in pixel order
(R, G, B, then A when present, which is the channel order inside each
pixel), and leaves every pixel that starts after the bitstream-plus-
delimiter is exhausted byte-for-byte unchanged. -/
theorem c5_embed_frame (img : Image) (data : List Bool) (pw : List Nat)
    (hwf : ∀ p ∈ img.pixels, p.length = img.channels)
    (hmode : img.channels = 3 ∨ img.channels = 4)
    (hcap : (if pw = [] then 0 else 512) + data.length + 16 ≤
      img.pixels.length * img.channels) :
    ∃ img', embed_data_in_image img data pw = some img'
      ∧ img'.channels = img.channels
      ∧ img'.pixels.map (List.map (· / 2)) = img.pixels.map (List.map (· / 2))
      ∧ scanLSBs img'.pixels =
          (prependGate pw data ++ delimiter) ++
            (scanLSBs img.pixels).drop ((if pw = [] then 0 else 512) + data.length + 16)
      ∧ ∀ k, (if pw = [] then 0 else 512) + data.length + 16 ≤ img.channels * k →
          img'.pixels.drop k = img.pixels.drop k := by
  have hdlen : (prependGate pw data ++ delimiter).length =
      (if pw = [] then 0 else 512) + data.length + 16 := embed_dwd_length pw data
  have hscan : (scanLSBs img.pixels).length = img.pixels.length * img.channels :=
    scanLSBs_length_wf _ _ hwf
  refine ⟨⟨img.channels, embedPixels img.pixels (prependGate pw data ++ delimiter)⟩,
    ?_, rfl, embedPixels_div2 _ _, ?_, ?_⟩
  · unfold embed_data_in_image
    rw [if_neg (by omega)]
  · rw [scanLSBs_embedPixels, hscan,
      List.take_of_length_le (by omega), hdlen]
  · intro k hk
    apply embedPixels_drop
    rw [take_map_length_sum_wf _ _ _ hwf, hdlen]
    rcases Nat.le_total k img.pixels.length with h | h
    · rw [Nat.min_eq_left h, Nat.mul_comm]
      exact hk
    · rw [Nat.min_eq_right h, Nat.mul_comm]
      rw [Nat.mul_comm] at hcap
      exact hcap

/-- Witness for C5: one data bit embedded into a six-pixel RGB image. -/
theorem c5_witness :
    ∃ img', embed_data_in_image ⟨3, List.replicate 6 [5, 7, 9]⟩ [true] [] = some img'
      ∧ img'.channels = 3
      ∧ img'.pixels.map (List.map (· / 2)) =
          (List.replicate 6 [5, 7, 9]).map (List.map (· / 2))
      ∧ scanLSBs img'.pixels =
          (prependGate [] [true] ++ delimiter) ++
            (scanLSBs (List.replicate 6 [5, 7, 9])).drop
              ((if ([] : List Nat) = [] then 0 else 512) + [true].length + 16)
      ∧ ∀ k, (if ([] : List Nat) = [] then 0 else 512) + [true].length + 16 ≤ 3 * k →
          img'.pixels.drop k = (List.replicate 6 [5, 7, 9]).drop k :=
  c5_embed_frame ⟨3, List.replicate 6 [5, 7, 9]⟩ [true] []
    (by decide) (Or.inl rfl) (by decide)

theorem u32LEbytes_lt256 (n : Nat) : ∀ b ∈ u32LEbytes n, b < 256 := by
  intro b hb
  simp only [u32LEbytes, List.mem_cons, List.not_mem_nil, or_false] at hb
  rcases hb with h | h | h | h <;> subst h <;> exact Nat.mod_lt _ (by omega)

/-- Claim C8: the file frame is the 8-byte header — `filenameLength` then
`contentLength`, each a little-endian `u32` — followed by the filename
bytes and the content bytes, each byte emitted as 8 bits MSB-first; its
bit length is `64 + 8*len(filename) + 8*len(content)` (the concrete
`"a.txt"`/`"app"` scenario, plus the 16-bit delimiter, is the witness). -/
theorem c8_file_frame (fn content : List Nat)
    (hfn : ∀ c ∈ fn, c < 256) (hc : ∀ b ∈ content, b < 256)
    (hfl : fn.length < 4294967296) (hcl : content.length < 4294967296) :
    (file_to_binary fn content).length = 64 + 8 * fn.length + 8 * content.length
    ∧ binary_to_text (file_to_binary fn content) =
        u32LEbytes fn.length ++ u32LEbytes content.length ++ fn ++ content := by
  have hall : ∀ c ∈ u32LEbytes fn.length ++ u32LEbytes content.length ++ fn ++ content,
      c < 256 := by
    intro c hcm
    simp only [List.mem_append] at hcm
    rcases hcm with ((h | h) | h) | h
    · exact u32LEbytes_lt256 _ c h
    · exact u32LEbytes_lt256 _ c h
    · exact hfn c h
    · exact hc c h
  have heq : file_to_binary fn content =
      text_to_binary (u32LEbytes fn.length ++ u32LEbytes content.length ++ fn ++ content) := by
    simp only [file_to_binary, text_to_binary_append, List.append_assoc]
  constructor
  · rw [heq, text_to_binary_length _ hall]
    simp only [List.length_append, u32LEbytes, List.length_cons, List.length_nil]
    ring
  · rw [heq, binary_to_text_t2b _ hall]

/-- Witness for C8: the `"a.txt"` / `"app"` scenario needs
`64 + 40 + 24 + 16 = 144` bits of capacity. -/
theorem c8_witness :
    (file_to_binary [97, 46, 116, 120, 116] [97, 112, 112]).length + 16 = 144
    ∧ binary_to_text (file_to_binary [97, 46, 116, 120, 116] [97, 112, 112]) =
        [5, 0, 0, 0] ++ [3, 0, 0, 0] ++ [97, 46, 116, 120, 116] ++ [97, 112, 112] := by
  have h := c8_file_frame [97, 46, 116, 120, 116] [97, 112, 112]
    (by decide) (by decide) (by decide) (by decide)
  constructor
  · rw [h.1]
    rfl
  · rw [h.2]
    rfl

theorem binary_to_text_peel (l : List Bool) (h : 8 ≤ l.length) :
    binary_to_text l = bitsVal (l.take 8) :: binary_to_text (l.drop 8) := by
  conv_lhs => rw [← List.take_append_drop 8 l]
  rw [binary_to_text_append8 _ _ (by rw [List.length_take]; omega)]

theorem foldl_bits_lt (l : List Bool) (a : Nat) :
    l.foldl (fun x b => 2 * x + bitVal b) a < (a + 1) * 2 ^ l.length := by
  induction l generalizing a with
  | nil => simp
  | cons b bs ih =>
      simp only [List.foldl_cons, List.length_cons]
      calc bs.foldl (fun x b => 2 * x + bitVal b) (2 * a + bitVal b)
          < (2 * a + bitVal b + 1) * 2 ^ bs.length := ih _
        _ ≤ (a + 1) * 2 ^ (bs.length + 1) := by
            rw [pow_succ]
            have hb : bitVal b ≤ 1 := by cases b <;> simp [bitVal]
            nlinarith [Nat.pos_pow_of_pos bs.length (show 0 < 2 by omega)]

theorem bitsVal_lt (l : List Bool) : bitsVal l < 2 ^ l.length := by
  have := foldl_bits_lt l 0
  simpa [bitsVal] using this

theorem text_to_binary_length_ge (t : List Nat) :
    8 * t.length ≤ (text_to_binary t).length := by
  induction t with
  | nil => simp [text_to_binary]
  | cons c t ih =>
      rw [text_to_binary_cons, List.length_append, List.length_cons]
      have := charBits_length_ge8 c
      omega

theorem text_to_binary_length_gt (t : List Nat) (h : ∃ c ∈ t, 256 ≤ c) :
    8 * t.length < (text_to_binary t).length := by
  induction t with
  | nil => simp at h
  | cons c t ih =>
      rw [text_to_binary_cons, List.length_append, List.length_cons]
      rcases h with ⟨x, hx, hge⟩
      rcases List.mem_cons.mp hx with rfl | hx'
      · have h9 := charBits_length_ge_of_ge x hge
        have := text_to_binary_length_ge t
        omega
      · have := ih ⟨x, hx', hge⟩
        have := charBits_length_ge8 c
        omega

theorem decode_encode_ne (t : List Nat) (h : ∃ c ∈ t, 256 ≤ c) :
    binary_to_text (text_to_binary t) ≠ t := by
  induction t with
  | nil => simp at h
  | cons c t ih =>
      rw [text_to_binary_cons]
      by_cases hc : 256 ≤ c
      · have h9 : 9 ≤ (charBits c).length := charBits_length_ge_of_ge c hc
        rw [binary_to_text_peel _ (by rw [List.length_append]; omega)]
        intro hcontra
        have hhead : bitsVal ((charBits c ++ text_to_binary t).take 8) = c := by
          exact (List.cons.injEq _ _ _ _ ▸ hcontra).1
        have htake : (charBits c ++ text_to_binary t).take 8 = (charBits c).take 8 := by
          rw [List.take_append_eq_append_take, Nat.sub_eq_zero_of_le (by omega),
            List.take_zero, List.append_nil]
        rw [htake] at hhead
        have hlt : bitsVal ((charBits c).take 8) < 256 := by
          have := bitsVal_lt ((charBits c).take 8)
          have hlen : ((charBits c).take 8).length = 8 := by
            rw [List.length_take]
            omega
          rw [hlen] at this
          exact this
        omega
      · push_neg at hc
        have hrest : ∃ x ∈ t, 256 ≤ x := by
          rcases h with ⟨x, hx, hge⟩
          rcases List.mem_cons.mp hx with rfl | hx'
          · omega
          · exact ⟨x, hx', hge⟩
        rw [binary_to_text_append8 _ _ (charBits_length_of_lt c hc),
          bitsVal_charBits c hc]
        intro hcontra
        exact ih hrest (List.cons.injEq _ _ _ _ ▸ hcontra).2

/-- Claim C9: `text_to_binary` emits exactly 8 bits per character iff every
code point is at most 255; a code point of 256 or more contributes its
minimal (unpadded) binary representation of more than 8 bits, making the
output longer than `8*len(text)`; and decode-after-encode is the identity
exactly on texts whose code points all fit one byte. -/
theorem c9_text_to_binary_byte_range :
    (∀ t : List Nat, (text_to_binary t).length = 8 * t.length ↔ ∀ c ∈ t, c < 256)
    ∧ (∀ c : Nat, 256 ≤ c →
        charBits c = natToBin c ∧ 8 < (charBits c).length ∧ bitsVal (charBits c) = c)
    ∧ (∀ t : List Nat, (∃ c ∈ t, 256 ≤ c) → 8 * t.length < (text_to_binary t).length)
    ∧ (∀ t : List Nat, binary_to_text (text_to_binary t) = t ↔ ∀ c ∈ t, c < 256) := by
  refine ⟨?_, ?_, text_to_binary_length_gt, ?_⟩
  · intro t
    constructor
    · intro hlen
      by_contra hcon
      push_neg at hcon
      obtain ⟨c, hc, hge⟩ := hcon
      have := text_to_binary_length_gt t ⟨c, hc, by omega⟩
      omega
    · exact text_to_binary_length _
  · intro c hc
    refine ⟨charBits_eq_natToBin_of_ge c hc, ?_, ?_⟩
    · have := charBits_length_ge_of_ge c hc
      omega
    · rw [charBits_eq_natToBin_of_ge c hc]
      exact bitsVal_natToBin c
  · intro t
    constructor
    · intro hdec
      by_contra hcon
      push_neg at hcon
      obtain ⟨c, hc, hge⟩ := hcon
      exact decode_encode_ne t ⟨c, hc, by omega⟩ hdec
    · exact binary_to_text_t2b t

/-- Witness for C9: the character 256 breaks the 8-bit format and the
round trip, while the all-byte text `[5, 65]` round-trips. -/
theorem c9_witness :
    8 * ([256] : List Nat).length < (text_to_binary [256]).length
    ∧ binary_to_text (text_to_binary [5, 65]) = [5, 65] :=
  ⟨c9_text_to_binary_byte_range.2.2.1 [256] ⟨256, by decide, by decide⟩,
   (c9_text_to_binary_byte_range.2.2.2 [5, 65]).mpr (by decide)⟩

theorem bitsToBytesGUI_length (l : List Bool) :
    (bitsToBytesGUI l).length = (l.length + 7) / 8 := by
  match l with
  | [] => rfl
  | [a] =>
      show ([bitsVal [a]]).length = _
      simp
  | [a, b] =>
      show ([bitsVal [a, b]]).length = _
      simp
  | [a, b, c] =>
      show ([bitsVal [a, b, c]]).length = _
      simp
  | [a, b, c, d] =>
      show ([bitsVal [a, b, c, d]]).length = _
      simp
  | [a, b, c, d, e] =>
      show ([bitsVal [a, b, c, d, e]]).length = _
      simp
  | [a, b, c, d, e, f] =>
      show ([bitsVal [a, b, c, d, e, f]]).length = _
      simp
  | [a, b, c, d, e, f, g] =>
      show ([bitsVal [a, b, c, d, e, f, g]]).length = _
      simp
  | b0 :: b1 :: b2 :: b3 :: b4 :: b5 :: b6 :: b7 :: rest =>
      have ih := bitsToBytesGUI_length rest
      show (bitsVal [b0, b1, b2, b3, b4, b5, b6, b7] :: bitsToBytesGUI rest).length = _
      rw [List.length_cons, ih]
      simp only [List.length_cons]
      omega

/-- A bitstream whose header declares a 1-byte filename and 2 content
bytes but which carries only 3 bits after the filename. -/
def c7bits : List Bool :=
  text_to_binary [1, 0, 0, 0, 2, 0, 0, 0] ++ charBits 97 ++ [true, false, true]

/-- Counterexample to claim C7: the declared content length (2 bytes = 16
bits) exceeds the 3 bits remaining after the header and filename, yet the
parse does not signal a framing error — it returns a file payload whose
content was silently truncated to the single byte decoded from the 3
leftover bits. -/
theorem c7_counterexample :
    headerOf c7bits = (1, 2)
    ∧ c7bits.length < 64 + 1 * 8 + 2 * 8
    ∧ extract_data c7bits = ExtractResult.file [97] [5] := by
  decide

/-- Claim C7 as amended: a file payload is produced only when at least 64
bits are present and the header passes the sanity bounds
(`0 < filenameLength < 1000`, `0 < contentLength`) — otherwise the
bitstream is interpreted as text — but declared lengths exceeding the
remaining bits do not cause a failure: the filename and content slices are
clipped to the bits actually present, so the returned content holds at
most the remaining bits (truncated relative to the declared length). -/
theorem c7_frame_parse (bits : List Bool) :
    (∀ fn c, extract_data bits = ExtractResult.file fn c →
        64 ≤ bits.length
        ∧ 0 < (headerOf bits).1 ∧ (headerOf bits).1 < 1000 ∧ 0 < (headerOf bits).2
        ∧ fn = binary_to_text ((bits.drop 64).take ((headerOf bits).1 * 8))
        ∧ c = bitsToBytesGUI
            ((bits.drop (64 + (headerOf bits).1 * 8)).take ((headerOf bits).2 * 8))
        ∧ 8 * c.length ≤
            7 + min ((headerOf bits).2 * 8) (bits.length - (64 + (headerOf bits).1 * 8)))
    ∧ (¬ (64 ≤ bits.length ∧
          0 < (headerOf bits).1 ∧ (headerOf bits).1 < 1000 ∧ 0 < (headerOf bits).2) →
        extract_data bits = ExtractResult.text (binary_to_text bits)) := by
  by_cases h64 : 64 ≤ bits.length
  · by_cases hsan : 0 < (headerOf bits).1 ∧ (headerOf bits).1 < 1000 ∧ 0 < (headerOf bits).2
    · constructor
      · intro fn c heq
        unfold extract_data extract_file_data at heq
        rw [if_pos h64, if_pos hsan] at heq
        cases heq
        refine ⟨h64, hsan.1, hsan.2.1, hsan.2.2, rfl, rfl, ?_⟩
        rw [bitsToBytesGUI_length, List.length_take, List.length_drop]
        omega
      · intro hcon
        exact absurd ⟨h64, hsan⟩ hcon
    · constructor
      · intro fn c heq
        unfold extract_data at heq
        rw [if_pos h64, if_neg hsan] at heq
        exact absurd heq (by simp)
      · intro _
        unfold extract_data
        rw [if_pos h64, if_neg hsan]
  · constructor
    · intro fn c heq
      unfold extract_data at heq
      rw [if_neg h64] at heq
      exact absurd heq (by simp)
    · intro _
      unfold extract_data
      rw [if_neg h64]

/-- Witness for the amended C7 at the truncating bitstream. -/
theorem c7_witness :
    64 ≤ c7bits.length
    ∧ 0 < (headerOf c7bits).1 ∧ (headerOf c7bits).1 < 1000 ∧ 0 < (headerOf c7bits).2
    ∧ [97] = binary_to_text ((c7bits.drop 64).take ((headerOf c7bits).1 * 8))
    ∧ [5] = bitsToBytesGUI
        ((c7bits.drop (64 + (headerOf c7bits).1 * 8)).take ((headerOf c7bits).2 * 8))
    ∧ 8 * [5].length ≤
        7 + min ((headerOf c7bits).2 * 8) (c7bits.length - (64 + (headerOf c7bits).1 * 8)) :=
  (c7_frame_parse c7bits).1 [97] [5] (by decide)

/-- The LSB scan of an embedded image: the embedded bits followed by the
untouched tail of the original scan. -/
theorem scan_embed_wf (img : Image) (bits : List Bool)
    (hwf : ∀ p ∈ img.pixels, p.length = img.channels)
    (hcap : bits.length ≤ img.pixels.length * img.channels) :
    scanLSBs (embedPixels img.pixels bits) =
      bits ++ (scanLSBs img.pixels).drop bits.length := by
  rw [scanLSBs_embedPixels, scanLSBs_length_wf _ _ hwf, List.take_of_length_le hcap]

/-- Claim C1: for a cover image, a byte-range text and any password, if the
required bits (512 digest bits when the password is non-empty, 8 bits per
character, 16 delimiter bits) fit the capacity and the delimiter does not
occur inside the digest-plus-payload bits, then extracting with the same
password after embedding returns exactly the original text. -/
theorem c1_round_trip_text (img : Image) (t pw : List Nat)
    (hwf : ∀ p ∈ img.pixels, p.length = img.channels)
    (hmode : img.channels = 3 ∨ img.channels = 4)
    (ht : ∀ c ∈ t, c < 256)
    (hcap : (if pw = [] then 0 else 512) + 8 * t.length + 16 ≤
      img.pixels.length * img.channels)
    (hnd : ∀ i < (prependGate pw (text_to_binary t)).length,
      startsWith ((prependGate pw (text_to_binary t)).drop i) delimiter = false) :
    (embed_data_in_image img (text_to_binary t) pw).bind
      (fun im => (extract_data_from_image im pw).map binary_to_text) = some t := by
  have hlen1 : (prependGate pw (text_to_binary t)).length =
      (if pw = [] then 0 else 512) + 8 * t.length := by
    rw [prependGate_length, text_to_binary_length t ht]
  have hflen : (prependGate pw (text_to_binary t) ++ delimiter).length =
      (if pw = [] then 0 else 512) + 8 * t.length + 16 := by
    rw [List.length_append, delimiter_length, hlen1]
  have hcap' : (prependGate pw (text_to_binary t) ++ delimiter).length ≤
      img.pixels.length * img.channels := by
    rw [hflen]
    exact hcap
  -- the embedding succeeds
  have hembed : embed_data_in_image img (text_to_binary t) pw =
      some ⟨img.channels,
        embedPixels img.pixels (prependGate pw (text_to_binary t) ++ delimiter)⟩ := by
    unfold embed_data_in_image
    rw [if_neg (by omega)]
  rw [hembed, Option.some_bind]
  -- the scan of the embedded image
  have hscan : scanLSBs (embedPixels img.pixels
        (prependGate pw (text_to_binary t) ++ delimiter)) =
      prependGate pw (text_to_binary t) ++ (delimiter ++
        (scanLSBs img.pixels).drop
          ((prependGate pw (text_to_binary t) ++ delimiter).length)) := by
    rw [scan_embed_wf img _ hwf hcap', List.append_assoc]
  -- the first delimiter occurrence is right after the embedded data
  have hfind : findSub delimiter (scanLSBs (embedPixels img.pixels
        (prependGate pw (text_to_binary t) ++ delimiter))) =
      some (prependGate pw (text_to_binary t)).length := by
    rw [hscan]
    exact findSub_delimiter_embed _ _ hnd
  have hex : extract_data_from_image ⟨img.channels,
        embedPixels img.pixels (prependGate pw (text_to_binary t) ++ delimiter)⟩ pw =
      some (text_to_binary t) := by
    unfold extract_data_from_image
    rw [hfind, Option.some_bind]
    have htake : (scanLSBs (embedPixels img.pixels
          (prependGate pw (text_to_binary t) ++ delimiter))).take
        (prependGate pw (text_to_binary t)).length =
        prependGate pw (text_to_binary t) := by
      rw [hscan, List.take_left]
    by_cases hpw : pw = []
    · rw [if_pos hpw, htake]
      subst hpw
      rfl
    · rw [if_neg hpw, htake]
      have hgate : prependGate pw (text_to_binary t) =
          text_to_binary (sha256hex pw) ++ text_to_binary t := by
        unfold prependGate
        rw [if_neg hpw]
      have hdl : (text_to_binary (sha256hex pw)).length = 512 := digestBits_length pw
      rw [if_neg (by rw [hlen1, hdl, if_neg hpw]; omega)]
      have htake512 : (prependGate pw (text_to_binary t)).take
          (text_to_binary (sha256hex pw)).length = text_to_binary (sha256hex pw) := by
        rw [hgate, List.take_left]
      have hdec : binary_to_text ((prependGate pw (text_to_binary t)).take
          (text_to_binary (sha256hex pw)).length) = sha256hex pw := by
        rw [htake512, binary_to_text_t2b _ (sha256hex_lt256 pw)]
      rw [if_neg (by rw [hdec]; simp)]
      rw [hgate, List.drop_left]
  rw [hex, Option.map_some', binary_to_text_t2b t ht]

/-- Witness for C1: the text `"A"` round-trips through an eight-pixel RGB
image with no password. -/
theorem c1_witness :
    (embed_data_in_image ⟨3, List.replicate 8 [10, 20, 30]⟩ (text_to_binary [65]) []).bind
      (fun im => (extract_data_from_image im []).map binary_to_text) = some [65] :=
  c1_round_trip_text ⟨3, List.replicate 8 [10, 20, 30]⟩ [65] []
    (by decide) (Or.inl rfl) (by decide) (by decide)
    (by decide)

/-- Counterexample to claim C3: extracting with the empty password from an
image embedded with the non-empty password `"a"` does not yield the
"not found" failure — the code skips verification entirely and returns the
digest-prefixed payload. -/
theorem c3_counterexample :
    (embed_data_in_image ⟨3, List.replicate 179 [0, 0, 0]⟩ (text_to_binary [66]) [97]).bind
      (fun im => extract_data_from_image im []) =
      some (text_to_binary (sha256hex [97]) ++ text_to_binary [66]) := by
  decide

/-- Claim C3 as amended: for two NON-EMPTY passwords whose SHA-256 digests
differ, extracting with the second from an image embedded (within
capacity) with the first always yields the "not found" failure; with an
empty extraction password the digest-prefixed bitstream is returned
instead (see the counterexample). -/
theorem c3_wrong_password (img : Image) (data : List Bool) (pw1 pw2 : List Nat)
    (hwf : ∀ p ∈ img.pixels, p.length = img.channels)
    (h1 : pw1 ≠ []) (h2 : pw2 ≠ [])
    (hd : sha256hex pw1 ≠ sha256hex pw2)
    (hcap : 512 + data.length + 16 ≤ img.pixels.length * img.channels) :
    (embed_data_in_image img data pw1).bind
      (fun im => extract_data_from_image im pw2) = none := by
  have hDlen : (prependGate pw1 data).length = 512 + data.length := by
    rw [prependGate_length, if_neg h1]
  have hcap' : (prependGate pw1 data ++ delimiter).length ≤
      img.pixels.length * img.channels := by
    rw [List.length_append, delimiter_length, hDlen]
    omega
  have hembed : embed_data_in_image img data pw1 =
      some ⟨img.channels, embedPixels img.pixels (prependGate pw1 data ++ delimiter)⟩ := by
    unfold embed_data_in_image
    rw [if_neg (by omega)]
  rw [hembed, Option.some_bind]
  have hscan : scanLSBs (embedPixels img.pixels (prependGate pw1 data ++ delimiter)) =
      prependGate pw1 data ++ (delimiter ++
        (scanLSBs img.pixels).drop ((prependGate pw1 data ++ delimiter).length)) := by
    rw [scan_embed_wf img _ hwf hcap', List.append_assoc]
  unfold extract_data_from_image
  cases hf : findSub delimiter
      (scanLSBs (embedPixels img.pixels (prependGate pw1 data ++ delimiter))) with
  | none => rfl
  | some idx =>
      rw [Option.some_bind, if_neg h2]
      obtain ⟨hocc, hbefore⟩ := findSub_some _ _ _ hf
      have hidxle : idx ≤ (prependGate pw1 data).length := by
        by_contra hgt
        push_neg at hgt
        have hD := hbefore (prependGate pw1 data).length hgt
        rw [hscan, List.drop_left] at hD
        rw [startsWith_append_self] at hD
        simp at hD
      have hSlen : (prependGate pw1 data).length ≤
          (scanLSBs (embedPixels img.pixels (prependGate pw1 data ++ delimiter))).length := by
        rw [hscan, List.length_append]
        omega
      have hexlen : ((scanLSBs (embedPixels img.pixels
            (prependGate pw1 data ++ delimiter))).take idx).length = idx := by
        rw [List.length_take]
        omega
      have hl2 : (text_to_binary (sha256hex pw2)).length = 512 := digestBits_length pw2
      by_cases hidx : idx < 512
      · rw [if_pos (by rw [hexlen, hl2]; omega)]
      · push_neg at hidx
        rw [if_neg (by rw [hexlen, hl2]; omega)]
        have hgate : prependGate pw1 data =
            text_to_binary (sha256hex pw1) ++ data := by
          unfold prependGate
          rw [if_neg h1]
        have hl1 : (text_to_binary (sha256hex pw1)).length = 512 := digestBits_length pw1
        have htake : ((scanLSBs (embedPixels img.pixels
              (prependGate pw1 data ++ delimiter))).take idx).take
            (text_to_binary (sha256hex pw2)).length =
            text_to_binary (sha256hex pw1) := by
          rw [List.take_take, hl2, Nat.min_eq_left hidx, hscan, hgate,
            List.append_assoc, List.take_left' hl1]
        rw [if_pos (by
          rw [htake, binary_to_text_t2b _ (sha256hex_lt256 pw1)]
          exact hd)]

/-- Witness for the amended C3: embedding with password `"a"` and
extracting with password `"b"` yields the failure value. -/
theorem c3_witness :
    (embed_data_in_image ⟨3, List.replicate 179 [0, 0, 0]⟩ (text_to_binary [66]) [97]).bind
      (fun im => extract_data_from_image im [98]) = none :=
  c3_wrong_password ⟨3, List.replicate 179 [0, 0, 0]⟩ (text_to_binary [66]) [97] [98]
    (by decide) (by decide) (by decide) (by decide) (by decide)

end Stegano
